import Mathlib

/-!
# Verification of the DES-kernel specification against the coursework simulations

The repository's simulations (Coursework_Topic_4/5/9/20/28/31) are clients of a
discrete-event-simulation kernel (virtual clock, event queue, FIFO resources,
timeouts, AllOf/AnyOf composite waits).  The kernel itself is not part of the
checked-in sources — only its callers are — so the kernel components below are
modelled from the specification (each such definition says so in its doc
comment).  The simulation-side logic (Topic 9's task buffer, Topic 5's clamp of
negative normal draws, Topic 31's reneging branch structure, the histogram
coordinate generator) is translated directly from the Python sources.

Times are modelled as rationals, event sequence numbers and request identifiers
as naturals.
-/

namespace DESKernel

/-- Modelled from the spec (§7): the kernel's synchronous error taxonomy.
`ProcessFailure` is carried on a process terminal state and is not a
synchronous rejection, so it does not appear here. -/
inductive KernelError where
  | invalidTime : KernelError
  | invalidDuration : KernelError
  | doubleRelease : KernelError
  | alreadyGranted : KernelError
deriving DecidableEq, Repr

/-! ## Resource (spec §4.2): bounded-capacity mutual exclusion with a FIFO
wait queue.

Modelled from the spec: the Resource record of §3
`{capacity, held, wait_queue}` together with the per-Request `granted` flag.
Request identities are drawn from a strictly increasing counter `nextId`
(mirroring the kernel's creation counter); `holding` is the set of requests
currently holding a slot (the requests whose `granted` flag is set and which
have not been released), and `granted_log` is the monotonically growing set of
requests that have ever been granted. -/
structure Resource where
  capacity : ℤ
  held : ℤ
  wait_queue : List ℕ
  holding : List ℕ
  granted_log : List ℕ
  nextId : ℕ
deriving DecidableEq, Repr

/-- Modelled from the spec (§4.2 `request`): if `held < capacity` the fresh
request is granted immediately; otherwise it is appended (FIFO) to
`wait_queue`. -/
def applyRequest (r : Resource) : Resource :=
  if r.held < r.capacity then
    { r with held := r.held + 1,
             holding := r.nextId :: r.holding,
             granted_log := r.granted_log ++ [r.nextId],
             nextId := r.nextId + 1 }
  else
    { r with wait_queue := r.wait_queue ++ [r.nextId],
             nextId := r.nextId + 1 }

/-- Modelled from the spec (§4.2 `release`): releasing a request that is not
held fails with `DoubleRelease` and leaves the state unchanged; otherwise
`held` is decremented and, if the wait queue is non-empty, its head (the
longest-waiting request) is popped, granted, and `held` re-incremented — the
only path by which a queued request becomes granted. -/
def applyRelease (r : Resource) (id : ℕ) : Resource :=
  if id ∈ r.holding then
    match r.wait_queue with
    | [] => { r with held := r.held - 1, holding := r.holding.erase id }
    | h :: t =>
        { r with held := r.held - 1 + 1,
                 wait_queue := t,
                 holding := h :: r.holding.erase id,
                 granted_log := r.granted_log ++ [h] }
  else r

/-- Modelled from the spec (§4.2 `withdraw`): withdrawing an already-granted
request fails with `AlreadyGranted` and changes nothing; otherwise the request
is removed from `wait_queue` without touching `held` or the relative order of
the remaining entries. -/
def applyWithdraw (r : Resource) (id : ℕ) : Resource :=
  if id ∈ r.granted_log then r
  else { r with wait_queue := r.wait_queue.erase id }

/-- One resource operation, as issued by a simulation process. -/
inductive ROp where
  | request : ROp
  | release : ℕ → ROp
  | withdraw : ℕ → ROp
deriving DecidableEq, Repr

/-- Apply one operation to a resource. -/
def rstep (r : Resource) : ROp → Resource
  | ROp.request => applyRequest r
  | ROp.release id => applyRelease r id
  | ROp.withdraw id => applyWithdraw r id

/-- Run a sequence of operations against a resource. -/
def rrun (r : Resource) (ops : List ROp) : Resource := ops.foldl rstep r

/-- A fresh resource of the given capacity, as created by
`simpy.Resource(env, capacity=c)` in every simulation. -/
def mkResource (c : ℤ) : Resource :=
  { capacity := c, held := 0, wait_queue := [], holding := [],
    granted_log := [], nextId := 0 }

/-- The capacity invariant of spec §3/§8: `0 ≤ held ≤ capacity`, and `held`
counts exactly the requests currently holding a slot. -/
def CapInv (r : Resource) : Prop :=
  0 ≤ r.held ∧ r.held ≤ r.capacity ∧ r.held = r.holding.length

instance (r : Resource) : Decidable (CapInv r) := by
  unfold CapInv; infer_instance

/-- Well-formedness of a resource reachable from a fresh one: the wait queue
has no duplicate request ids, every queued or granted id was actually created
(is below the id counter), and no queued request is already granted. -/
def Rwf (r : Resource) : Prop :=
  r.wait_queue.Nodup ∧
  (∀ i ∈ r.wait_queue, i < r.nextId) ∧
  (∀ i ∈ r.wait_queue, i ∉ r.granted_log) ∧
  (∀ i ∈ r.granted_log, i < r.nextId)

/-- `r1` is strictly ahead of `r2`: either both are still queued with `r1`
earlier, and `r2` has not been granted, or `r1` has already been granted. -/
def AheadPair (r1 r2 : ℕ) (s : Resource) : Prop :=
  (List.Sublist [r1, r2] s.wait_queue ∧ r2 ∉ s.granted_log) ∨ r1 ∈ s.granted_log

/-! ## Scheduler (spec §4.1): virtual clock and the time-ordered event queue. -/

/-- Modelled from the spec (§3): a pending queue entry — an event's
`trigger_time` together with its strictly increasing creation `sequence`. -/
structure Entry where
  time : ℚ
  seq : ℕ
deriving DecidableEq, Repr

/-- Modelled from the spec (§4.1): the `(trigger_time, sequence)` ordering of
the event queue — earlier time first, ties broken by creation sequence. -/
def entryLe (a b : Entry) : Prop :=
  a.time < b.time ∨ (a.time = b.time ∧ a.seq ≤ b.seq)

instance : DecidableRel entryLe := fun a b => by
  unfold entryLe; infer_instance

instance : IsTotal Entry entryLe where
  total := by
    intro a b
    unfold entryLe
    rcases lt_trichotomy a.time b.time with h | h | h
    · exact Or.inl (Or.inl h)
    · rcases Nat.le_total a.seq b.seq with hs | hs
      · exact Or.inl (Or.inr ⟨h, hs⟩)
      · exact Or.inr (Or.inr ⟨h.symm, hs⟩)
    · exact Or.inr (Or.inl h)

instance : IsTrans Entry entryLe where
  trans := by
    intro a b c hab hbc
    rcases hab with h | ⟨he, hs⟩ <;> rcases hbc with h2 | ⟨he2, hs2⟩
    · exact Or.inl (h.trans h2)
    · exact Or.inl (show a.time < c.time by rw [← he2]; exact h)
    · exact Or.inl (show a.time < c.time by rw [he]; exact h2)
    · exact Or.inr ⟨he.trans he2, hs.trans hs2⟩

/-- One scheduler-facing operation: schedule a new event at an absolute
time, or execute one `env.step()` (pop the minimum entry, advance the
clock). -/
inductive SOp where
  | schedule : ℚ → SOp
  | step : SOp
deriving DecidableEq, Repr

/-- Modelled from the spec (§2/§3): the Scheduler owns the Clock (`now`), the
time-ordered queue of pending events, and the creation counter. -/
structure Sched where
  now : ℚ
  queue : List Entry
  nextSeq : ℕ
deriving DecidableEq, Repr

/-- Modelled from the spec (§4.1): `schedule` inserts keyed by
`(at_time, sequence)` and rejects times in the past (`InvalidTime`, state
unchanged); `step` pops the minimum `(time, sequence)` entry and advances
`clock.now` to its trigger time, reporting the time of the resolved event. -/
def schedStep (s : Sched) : SOp → Sched × Option ℚ
  | SOp.schedule t =>
      if t < s.now then (s, none)
      else ({ now := s.now,
              queue := s.queue.orderedInsert entryLe ⟨t, s.nextSeq⟩,
              nextSeq := s.nextSeq + 1 }, none)
  | SOp.step =>
      match s.queue with
      | [] => (s, none)
      | e :: rest => ({ now := e.time, queue := rest, nextSeq := s.nextSeq }, some e.time)

/-- Run a sequence of scheduler operations; the second component is the trace
of trigger times of resolved events, in resolution order. -/
def schedRun (s : Sched) : List SOp → Sched × List ℚ
  | [] => (s, [])
  | op :: ops =>
      let p := schedStep s op
      let q := schedRun p.1 ops
      (q.1, p.2.toList ++ q.2)

/-- Scheduler invariant: no pending entry lies in the clock's past, and the
queue is sorted by `(time, sequence)`. -/
def SInv (s : Sched) : Prop :=
  (∀ e ∈ s.queue, s.now ≤ e.time) ∧ s.queue.Sorted entryLe

/-- A fresh environment: clock at `0`, empty queue. -/
def mkSched : Sched := { now := 0, queue := [], nextSeq := 0 }

/-! ## Determinism of event resolution (spec §4.1 tie-break contract).

`StepRel` is the relational form of one scheduler step: it resolves any entry
that is minimal in the `(time, sequence)` order. Distinct events never share
both trigger time and sequence, so the minimal entry — and hence the whole
resolution order — is uniquely determined. -/

/-- Modelled from the spec (§4.1 `run_until`): a step resolves a queue entry
that is minimal for the `(trigger_time, sequence)` order, advances the clock
to its time and removes it from the queue. -/
def StepRel (s : Sched) (e : Entry) (s₂ : Sched) : Prop :=
  e ∈ s.queue ∧ (∀ x ∈ s.queue, entryLe e x) ∧
    s₂ = { now := e.time, queue := s.queue.erase e, nextSeq := s.nextSeq }

/-- A run of scheduler steps, recording the resolved entries in order. -/
inductive RunRel : Sched → List Entry → Sched → Prop where
  | nil (s : Sched) : RunRel s [] s
  | cons {s s₁ s₂ : Sched} {e : Entry} {tr : List Entry} :
      StepRel s e s₁ → RunRel s₁ tr s₂ → RunRel s (e :: tr) s₂

/-! ## Timeout (spec §4.3) and AnyOf (spec §4.4). -/

/-- Modelled from the spec (§4.3): `timeout(duration)` creates an event with
`trigger_time = clock.now + duration`; a negative duration is rejected
synchronously with `InvalidDuration`. A created timeout always resolves
successfully, so success is modelled by returning its trigger time. -/
def timeoutTrigger {α : Type} [LinearOrderedField α] (now d : α) :
    Except KernelError α :=
  if d < 0 then Except.error KernelError.invalidDuration else Except.ok (now + d)

/-- Models `random.uniform(lo, hi)`: `lo + (hi - lo) * u` where `u` is the
underlying `random()` draw in `[0, 1]`. -/
def uniformDraw {α : Type} [LinearOrderedField α] (lo hi u : α) : α :=
  lo + (hi - lo) * u

/-- From src Topic 5 (`source_2`/`process_2`): `if dt < 0: dt = 0` — the clamp
applied to normal inter-arrival draws before `env.timeout(dt)`. -/
def clampNonneg {α : Type} [LinearOrderedField α] (x : α) : α :=
  if x < 0 then 0 else x

/-- Modelled from the spec (§4.4 `any_of`): the race resolves with whichever
child resolves first in the `(trigger_time, sequence)` order; simultaneous
resolution is tie-broken by creation sequence (§4.1). -/
def anyOfWinner (e₁ e₂ : Entry) : Entry :=
  if entryLe e₁ e₂ then e₁ else e₂

/-- `id` can never (again) be granted: it is neither queued nor granted, and
its identifier is already used up, so no future request can reuse it. -/
def NeverGranted (id : ℕ) (s : Resource) : Prop :=
  id ∉ s.wait_queue ∧ id ∉ s.granted_log ∧ id < s.nextId

instance (r : Resource) : Decidable (Rwf r) := by
  unfold Rwf; infer_instance

end DESKernel

/-! ## Topic 31: message buffer with a 12-second reneging deadline. -/

namespace Topic31

open DESKernel

/-- From src Topic 31: the maximum buffer wait before a message is lost. -/
def DEADLINE : ℚ := 12

/-- The fate of one message in `process_message`: served after the recorded
wait, or counted in `lost_count` and never processed. -/
inductive MsgOutcome where
  | served : ℚ → MsgOutcome
  | lost : MsgOutcome
deriving DecidableEq, Repr

/-- From src Topic 31 (`process_message`): the message races its server
request (granted at `grantTime`, creation sequence `reqSeq`) against
`env.timeout(DEADLINE)` (triggering at `arrival + DEADLINE`, creation
sequence `timeoutSeq`).  If the request wins the race the wait time is
checked against the deadline and the message is processed, otherwise it is
lost.  The race winner is the spec-mandated `(time, sequence)` minimum. -/
def process_message (arrival grantTime : ℚ) (reqSeq timeoutSeq : ℕ) :
    MsgOutcome :=
  let reqEvent : Entry := ⟨grantTime, reqSeq⟩
  let timeoutEvent : Entry := ⟨arrival + DEADLINE, timeoutSeq⟩
  if anyOfWinner reqEvent timeoutEvent = reqEvent then
    if DEADLINE < grantTime - arrival then MsgOutcome.lost
    else MsgOutcome.served (grantTime - arrival)
  else MsgOutcome.lost

end Topic31

namespace DESKernel

/-! ## AllOf (spec §4.4): wait-for-all composite condition.

A resolved child is summarised by its completion time and success flag. -/

/-- Modelled from the spec (§4.4 `all_of`): the composite resolves
successfully exactly when every child resolved successfully. -/
def allOfOk (cs : List (ℚ × Bool)) : Bool := cs.all (fun c => c.2)

/-- Modelled from the spec (§4.4 `all_of`): when all children succeed, the
caller resumes once every child has completed — at the maximum of the child
completion times (times are non-negative virtual times). -/
def allOfTime (cs : List (ℚ × Bool)) : ℚ := (cs.map (fun c => c.1)).foldr max 0

end DESKernel

/-! ## Topic 9: grouping sensor messages into tasks of four. -/

namespace Topic9

/-- From src Topic 9: `MESSAGES_PER_TASK = 4`. -/
def MESSAGES_PER_TASK : ℕ := 4

/-- From src Topic 9 (`sensor_a_generator` / `sensor_b_generator`): append
the arrived message to `task_buffer`; if the buffer now holds at least
`MESSAGES_PER_TASK` messages, hand the first `MESSAGES_PER_TASK` of them (in
arrival order) to `preprocess_task` and keep the rest (order preserved). -/
def bufferAppend {α : Type} (buf : List α) (m : α) :
    List α × Option (List α) :=
  let b := buf ++ [m]
  if MESSAGES_PER_TASK ≤ b.length then
    (b.drop MESSAGES_PER_TASK, some (b.take MESSAGES_PER_TASK))
  else (b, none)

/-- The buffer contents after an arbitrary interleaving of sensor A and
sensor B arrivals, starting from the initially empty `task_buffer`. -/
def bufferRun {α : Type} (msgs : List α) : List α :=
  msgs.foldl (fun buf m => (bufferAppend buf m).1) []

end Topic9

/-! ## `generate_coords.py`: histogram coordinate generation.

From src `generate_coords.py` (`generate_histogram_coords`).  File access and
Python's `float()` parse are the only effectful steps; their outcomes are the
input here: the file is either unreadable (`Except.error`) or a list of
lines, each of which either parses to a number or raises
(`Except.error` per line).  Real-valued data is modelled by rationals.
`np.histogram(data, bins)` with its default arguments is embedded exactly in
exact arithmetic: `bins` equal-width bins spanning `[min data, max data]`
(widened by 1/2 on each side when all data are equal), each datum counted in
bin `⌊(v - lo)·bins/(hi - lo)⌋` capped at the last bin. -/

namespace Coords

/-- Sequential parsing of the file's lines: the first unparseable line aborts
with its error, mirroring the `for line in f: data.append(float(...))` loop
inside the `try`. -/
def parseLines : List (Except String ℚ) → Except String (List ℚ)
  | [] => Except.ok []
  | l :: ls =>
    match l with
    | Except.error e => Except.error e
    | Except.ok v =>
      match parseLines ls with
      | Except.error e => Except.error e
      | Except.ok vs => Except.ok (v :: vs)

/-- Minimum of a non-empty collection `x :: xs`. -/
def listMin (x : ℚ) (xs : List ℚ) : ℚ := xs.foldl min x

/-- Maximum of a non-empty collection `x :: xs`. -/
def listMax (x : ℚ) (xs : List ℚ) : ℚ := xs.foldl max x

/-- The histogram range `np.histogram` uses: `[min, max]` of the data,
widened to `[min - 1/2, max + 1/2]` when the data are all equal. -/
def histRange (d : ℚ) (ds : List ℚ) : ℚ × ℚ :=
  let lo := listMin d ds
  let hi := listMax d ds
  if lo = hi then (lo - 1 / 2, hi + 1 / 2) else (lo, hi)

/-- The bin a datum falls into: `⌊(v - lo)·bins/(hi - lo)⌋`, with the last
bin closed on the right (index capped at `bins - 1`). -/
def binIndex (lo hi : ℚ) (bins : ℕ) (v : ℚ) : ℕ :=
  min (Int.toNat ⌊(v - lo) * bins / (hi - lo)⌋) (bins - 1)

/-- The `i`-th bin edge of `bins` equal-width bins over `[lo, hi]`. -/
def binEdge (lo hi : ℚ) (bins i : ℕ) : ℚ := lo + (hi - lo) * i / bins

/-- One `(x, y)` pair per bin: `x` the midpoint of the bin's edges, `y` the
bin's count. -/
def histPairs (lo hi : ℚ) (bins : ℕ) (data : List ℚ) : List (ℚ × ℕ) :=
  (List.range bins).map (fun i =>
    ((binEdge lo hi bins i + binEdge lo hi bins (i + 1)) / 2,
      data.countP (fun v => decide (binIndex lo hi bins v = i))))

/-- The structured result of `generate_histogram_coords`: an error message,
or the list of per-bin pairs (empty for an empty file). -/
inductive CoordsResult where
  | error : String → CoordsResult
  | output : List (ℚ × ℕ) → CoordsResult
deriving DecidableEq, Repr

/-- From src `generate_coords.py` lines 3-23: open and parse the file (any
failure is caught and reported as `"Error: ..."`), return the empty output
for an empty file, otherwise the histogram pairs. -/
def histogramCoordsResult (file : Except String (List (Except String ℚ)))
    (bins : ℕ) : CoordsResult :=
  match file with
  | Except.error e => CoordsResult.error ("Error: " ++ e)
  | Except.ok lines =>
    match parseLines lines with
    | Except.error e => CoordsResult.error ("Error: " ++ e)
    | Except.ok [] => CoordsResult.output []
    | Except.ok (d :: ds) =>
        CoordsResult.output
          (histPairs (histRange d ds).1 (histRange d ds).2 bins (d :: ds))

/-- Rendering of one pair, modelling the `f"({x:.1f}, {y}) "` piece at exact
precision. -/
def renderPair (p : ℚ × ℕ) : String :=
  "(" ++ toString p.1 ++ ", " ++ toString p.2 ++ ") "

/-- Rendering of the final return value as a string. -/
def renderCoords : CoordsResult → String
  | CoordsResult.error e => e
  | CoordsResult.output ps => String.join (ps.map renderPair)

/-- The full function: structured computation followed by rendering. -/
def generate_histogram_coords (file : Except String (List (Except String ℚ)))
    (bins : ℕ) : String :=
  renderCoords (histogramCoordsResult file bins)

end Coords

/-! ## Kernel, buffer and histogram lemmas -/

namespace DESKernel

theorem capInv_step (r : Resource) (op : ROp) (hr : CapInv r) :
    CapInv (rstep r op) := by
  obtain ⟨h0, hcap, hlen⟩ := hr
  cases op with
  | request =>
    simp only [rstep, applyRequest]
    split
    · simp only [CapInv, List.length_cons]
      omega
    · exact ⟨h0, hcap, hlen⟩
  | release id =>
    simp only [rstep, applyRelease]
    split
    · rename_i hmem
      have hpos : 1 ≤ r.holding.length := List.length_pos.mpr (by
        intro hnil; rw [hnil] at hmem; exact (List.not_mem_nil id) hmem)
      have herase : (r.holding.erase id).length = r.holding.length - 1 :=
        List.length_erase_of_mem hmem
      split
      · simp only [CapInv, herase]
        omega
      · simp only [CapInv, List.length_cons, herase]
        omega
    · exact ⟨h0, hcap, hlen⟩
  | withdraw id =>
    simp only [rstep, applyWithdraw]
    split
    · exact ⟨h0, hcap, hlen⟩
    · exact ⟨h0, hcap, hlen⟩

theorem capInv_run (r : Resource) (ops : List ROp) (hr : CapInv r) :
    CapInv (rrun r ops) := by
  induction ops generalizing r with
  | nil => exact hr
  | cons op ops ih => exact ih (rstep r op) (capInv_step r op hr)

theorem capInv_mk (c : ℤ) (hc : 0 < c) : CapInv (mkResource c) := by
  refine ⟨le_refl 0, le_of_lt hc, ?_⟩
  simp [mkResource]

theorem capacity_step (r : Resource) (op : ROp) :
    (rstep r op).capacity = r.capacity := by
  cases op with
  | request =>
    simp only [rstep, applyRequest]
    split <;> rfl
  | release id =>
    simp only [rstep, applyRelease]
    split
    · split <;> rfl
    · rfl
  | withdraw id =>
    simp only [rstep, applyWithdraw]
    split <;> rfl

theorem capacity_run (r : Resource) (ops : List ROp) :
    (rrun r ops).capacity = r.capacity := by
  induction ops generalizing r with
  | nil => rfl
  | cons op ops ih => exact (ih (rstep r op)).trans (capacity_step r op)

theorem rwf_mk (c : ℤ) : Rwf (mkResource c) := by
  refine ⟨List.nodup_nil, ?_, ?_, ?_⟩ <;> intro i hi <;> simp [mkResource] at hi

theorem rwf_step (r : Resource) (op : ROp) (h : Rwf r) : Rwf (rstep r op) := by
  obtain ⟨hnd, hbound, hdisj, hgl⟩ := h
  cases op with
  | request =>
    simp only [rstep, applyRequest]
    split
    · simp only [Rwf]
      refine ⟨hnd, ?_, ?_, ?_⟩
      · intro i hi; exact Nat.lt_succ_of_lt (hbound i hi)
      · intro i hi hmem
        rcases List.mem_append.mp hmem with hm | hm
        · exact hdisj i hi hm
        · have he : i = r.nextId := by simpa using hm
          have hb := hbound i hi
          omega
      · intro i hmem
        rcases List.mem_append.mp hmem with hm | hm
        · exact Nat.lt_succ_of_lt (hgl i hm)
        · have he : i = r.nextId := by simpa using hm
          omega
    · simp only [Rwf]
      refine ⟨?_, ?_, ?_, ?_⟩
      · refine hnd.append (List.nodup_singleton _) ?_
        intro a ha hmem
        have he : a = r.nextId := by simpa using hmem
        have hb := hbound a ha
        omega
      · intro i hi
        rcases List.mem_append.mp hi with hm | hm
        · exact Nat.lt_succ_of_lt (hbound i hm)
        · have he : i = r.nextId := by simpa using hm
          omega
      · intro i hi hmem
        rcases List.mem_append.mp hi with hm | hm
        · exact hdisj i hm hmem
        · have he : i = r.nextId := by simpa using hm
          have hb := hgl i hmem
          omega
      · intro i hmem; exact Nat.lt_succ_of_lt (hgl i hmem)
  | release id =>
    simp only [rstep, applyRelease]
    split
    · split
      · exact ⟨hnd, hbound, hdisj, hgl⟩
      · rename_i h₁ t heq
        have hndq : (h₁ :: t).Nodup := heq ▸ hnd
        simp only [Rwf]
        refine ⟨(List.nodup_cons.mp hndq).2, ?_, ?_, ?_⟩
        · intro i hi
          exact hbound i (by rw [heq]; exact List.mem_cons_of_mem _ hi)
        · intro i hi hmem
          rcases List.mem_append.mp hmem with hm | hm
          · exact hdisj i (by rw [heq]; exact List.mem_cons_of_mem _ hi) hm
          · have he : i = h₁ := by simpa using hm
            subst he
            exact (List.nodup_cons.mp hndq).1 hi
        · intro i hmem
          rcases List.mem_append.mp hmem with hm | hm
          · exact hgl i hm
          · have he : i = h₁ := by simpa using hm
            subst he
            exact hbound i (by rw [heq]; exact List.mem_cons_self _ _)
    · exact ⟨hnd, hbound, hdisj, hgl⟩
  | withdraw id =>
    simp only [rstep, applyWithdraw]
    split
    · exact ⟨hnd, hbound, hdisj, hgl⟩
    · simp only [Rwf]
      refine ⟨hnd.erase id, ?_, ?_, hgl⟩
      · intro i hi; exact hbound i (List.mem_of_mem_erase hi)
      · intro i hi; exact hdisj i (List.mem_of_mem_erase hi)

theorem rwf_run (r : Resource) (ops : List ROp) (h : Rwf r) : Rwf (rrun r ops) := by
  induction ops generalizing r with
  | nil => exact h
  | cons op ops ih => exact ih (rstep r op) (rwf_step r op h)

/-- Erasing an element that does not occur in a sublist keeps the sublist. -/
theorem sublist_erase_keep (a : ℕ) (l₀ l : List ℕ) (ha : a ∉ l₀)
    (h : List.Sublist l₀ l) : List.Sublist l₀ (l.erase a) := by
  induction l generalizing l₀ with
  | nil =>
    rw [List.sublist_nil] at h
    subst h
    simp
  | cons x xs ih =>
    by_cases hx : x = a
    · subst hx
      rw [List.erase_cons_head]
      cases h with
      | cons _ htail => exact htail
      | cons₂ _ htail => exact absurd (List.mem_cons_self _ _) ha
    · rw [List.erase_cons_tail (not_beq_of_ne hx)]
      cases h with
      | cons _ htail => exact List.Sublist.cons x (ih l₀ ha htail)
      | cons₂ _ htail =>
        rename_i t
        exact List.Sublist.cons₂ x
          (ih t (fun hm => ha (List.mem_cons_of_mem x hm)) htail)

theorem aheadPair_step (r1 r2 : ℕ) (s : Resource) (op : ROp)
    (hwf : Rwf s) (h1 : op ≠ ROp.withdraw r1) (h2 : op ≠ ROp.withdraw r2)
    (h : AheadPair r1 r2 s) : AheadPair r1 r2 (rstep s op) := by
  obtain ⟨hnd, hbound, hdisj, hgl⟩ := hwf
  cases op with
  | request =>
    simp only [rstep, applyRequest]
    rcases h with ⟨hsub, hr2⟩ | hr1
    · have hr2mem : r2 ∈ s.wait_queue := hsub.subset (by simp)
      split
      · left
        refine ⟨hsub, ?_⟩
        intro hmem
        rcases List.mem_append.mp hmem with hm | hm
        · exact hr2 hm
        · have he : r2 = s.nextId := by simpa using hm
          have hb := hbound r2 hr2mem
          omega
      · left
        exact ⟨hsub.trans (List.sublist_append_left _ _), hr2⟩
    · split
      · right; exact List.mem_append.mpr (Or.inl hr1)
      · right; exact hr1
  | release id =>
    simp only [rstep, applyRelease]
    split
    · split
      · rename_i heq
        rcases h with ⟨hsub, hr2⟩ | hr1
        · rw [heq] at hsub
          have hnil := List.sublist_nil.mp hsub
          simp at hnil
        · right; exact hr1
      · rename_i h₁ t heq
        rcases h with ⟨hsub, hr2⟩ | hr1
        · have hndq : (h₁ :: t).Nodup := heq ▸ hnd
          rw [heq] at hsub
          cases hsub with
          | cons _ htail =>
            left
            refine ⟨htail, ?_⟩
            intro hmem
            rcases List.mem_append.mp hmem with hm | hm
            · exact hr2 hm
            · have he : r2 = h₁ := by simpa using hm
              have hr2t : r2 ∈ t := htail.subset (by simp)
              exact (List.nodup_cons.mp hndq).1 (he ▸ hr2t)
          | cons₂ _ htail =>
            right
            exact List.mem_append.mpr (Or.inr (by simp))
        · right; exact List.mem_append.mpr (Or.inl hr1)
    · exact h
  | withdraw id =>
    simp only [rstep, applyWithdraw]
    have hid1 : id ≠ r1 := fun he => h1 (by rw [he])
    have hid2 : id ≠ r2 := fun he => h2 (by rw [he])
    split
    · exact h
    · rcases h with ⟨hsub, hr2⟩ | hr1
      · left
        refine ⟨sublist_erase_keep id _ _ ?_ hsub, hr2⟩
        intro hm
        rcases (by simpa using hm : id = r1 ∨ id = r2) with hc | hc
        · exact hid1 hc
        · exact hid2 hc
      · right; exact hr1

theorem aheadPair_run (r1 r2 : ℕ) (s : Resource) (ops : List ROp)
    (hwf : Rwf s)
    (hops : ∀ op ∈ ops, op ≠ ROp.withdraw r1 ∧ op ≠ ROp.withdraw r2)
    (h : AheadPair r1 r2 s) : AheadPair r1 r2 (rrun s ops) := by
  induction ops generalizing s with
  | nil => exact h
  | cons op ops ih =>
    exact ih (rstep s op) (rwf_step s op hwf)
      (fun o ho => hops o (List.mem_cons_of_mem _ ho))
      (aheadPair_step r1 r2 s op hwf
        (hops op (List.mem_cons_self _ _)).1
        (hops op (List.mem_cons_self _ _)).2 h)

theorem entryLe_antisymm (a b : Entry) (h1 : entryLe a b) (h2 : entryLe b a) :
    a = b := by
  obtain ⟨ta, sa⟩ := a
  obtain ⟨tb, sb⟩ := b
  rcases h1 with h | ⟨he, hs⟩ <;> rcases h2 with h2 | ⟨he2, hs2⟩
  · exact absurd h2 (lt_asymm h)
  · simp only at he2
    rw [he2] at h
    exact absurd h (lt_irrefl _)
  · simp only at he
    rw [he] at h2
    exact absurd h2 (lt_irrefl _)
  · simp only at he hs hs2
    rw [he, Nat.le_antisymm hs hs2]

/-- Time first, sequence second: `entryLe` entries have ordered times. -/
theorem entryLe_time (a b : Entry) (h : entryLe a b) : a.time ≤ b.time := by
  rcases h with h | ⟨he, _⟩
  · exact le_of_lt h
  · exact le_of_eq he

theorem sinv_mk : SInv mkSched := by
  constructor
  · intro e he; simp [mkSched] at he
  · exact List.sorted_nil

theorem schedStep_facts (s : Sched) (op : SOp) (h : SInv s) :
    SInv (schedStep s op).1 ∧ s.now ≤ (schedStep s op).1.now ∧
      (((schedStep s op).2 = none ∧ (schedStep s op).1.now = s.now) ∨
        ∃ t, (schedStep s op).2 = some t ∧ (schedStep s op).1.now = t ∧
          s.now ≤ t) := by
  obtain ⟨hbound, hsorted⟩ := h
  cases op with
  | schedule t =>
    simp only [schedStep]
    split
    · exact ⟨⟨hbound, hsorted⟩, le_refl _, Or.inl ⟨rfl, rfl⟩⟩
    · rename_i hnotlt
      refine ⟨⟨?_, hsorted.orderedInsert _ _⟩, le_refl _, Or.inl ⟨rfl, rfl⟩⟩
      intro e he
      rcases (List.mem_orderedInsert entryLe).mp he with he | he
      · rw [he]
        exact le_of_not_lt hnotlt
      · exact hbound e he
  | step =>
    simp only [schedStep]
    split
    · exact ⟨⟨hbound, hsorted⟩, le_refl _, Or.inl ⟨rfl, rfl⟩⟩
    · rename_i e rest heq
      have hnow : s.now ≤ e.time := hbound e (by rw [heq]; exact List.mem_cons_self _ _)
      have hsorted2 : (e :: rest).Sorted entryLe := heq ▸ hsorted
      refine ⟨⟨?_, (List.sorted_cons.mp hsorted2).2⟩, hnow, Or.inr ⟨e.time, rfl, rfl, hnow⟩⟩
      intro x hx
      exact entryLe_time e x ((List.sorted_cons.mp hsorted2).1 x hx)

theorem sinv_chain (s : Sched) (ops : List SOp) (h : SInv s) :
    List.Chain' (· ≤ ·) (s.now :: (schedRun s ops).2) ∧
      s.now ≤ (schedRun s ops).1.now := by
  induction ops generalizing s with
  | nil => exact ⟨List.chain'_singleton _, le_refl _⟩
  | cons op ops ih =>
    obtain ⟨hinv, hle, hout⟩ := schedStep_facts s op h
    obtain ⟨ihchain, ihle⟩ := ih (schedStep s op).1 hinv
    simp only [schedRun]
    rcases hout with ⟨hnone, hnow⟩ | ⟨t, hsome, hnow, hnt⟩
    · rw [hnone]
      simp only [Option.toList_none, List.nil_append]
      rw [hnow] at ihchain ihle
      exact ⟨ihchain, ihle⟩
    · rw [hsome]
      simp only [Option.toList_some, List.cons_append, List.nil_append]
      rw [hnow] at ihchain ihle
      exact ⟨List.Chain'.cons hnt ihchain, le_trans hnt ihle⟩

theorem stepRel_unique (s : Sched) (e₁ e₂ : Entry) (s₁ s₂ : Sched)
    (h1 : StepRel s e₁ s₁) (h2 : StepRel s e₂ s₂) : e₁ = e₂ ∧ s₁ = s₂ := by
  obtain ⟨hm1, hmin1, hs1⟩ := h1
  obtain ⟨hm2, hmin2, hs2⟩ := h2
  have he : e₁ = e₂ := entryLe_antisymm e₁ e₂ (hmin1 e₂ hm2) (hmin2 e₁ hm1)
  subst he
  exact ⟨rfl, hs1.trans hs2.symm⟩

theorem neverGranted_step (id : ℕ) (s : Resource) (op : ROp)
    (h : NeverGranted id s) : NeverGranted id (rstep s op) := by
  obtain ⟨hq, hg, hn⟩ := h
  cases op with
  | request =>
    simp only [rstep, applyRequest]
    split
    · simp only [NeverGranted]
      refine ⟨hq, ?_, by omega⟩
      intro hmem
      rcases List.mem_append.mp hmem with hm | hm
      · exact hg hm
      · have he : id = s.nextId := by simpa using hm
        omega
    · simp only [NeverGranted]
      refine ⟨?_, hg, by omega⟩
      intro hmem
      rcases List.mem_append.mp hmem with hm | hm
      · exact hq hm
      · have he : id = s.nextId := by simpa using hm
        omega
  | release rid =>
    simp only [rstep, applyRelease]
    split
    · split
      · exact ⟨hq, hg, hn⟩
      · rename_i h₁ t heq
        simp only [NeverGranted]
        rw [heq] at hq
        refine ⟨fun hm => hq (List.mem_cons_of_mem _ hm), ?_, hn⟩
        intro hmem
        rcases List.mem_append.mp hmem with hm | hm
        · exact hg hm
        · have he : id = h₁ := by simpa using hm
          exact hq (he ▸ List.mem_cons_self _ _)
    · exact ⟨hq, hg, hn⟩
  | withdraw wid =>
    simp only [rstep, applyWithdraw]
    split
    · exact ⟨hq, hg, hn⟩
    · simp only [NeverGranted]
      exact ⟨fun hm => hq (List.mem_of_mem_erase hm), hg, hn⟩

theorem neverGranted_run (id : ℕ) (s : Resource) (ops : List ROp)
    (h : NeverGranted id s) : NeverGranted id (rrun s ops) := by
  induction ops generalizing s with
  | nil => exact h
  | cons op ops ih => exact ih (rstep s op) (neverGranted_step id s op h)

theorem le_foldr_max (x : ℚ) (l : List ℚ) (hx : x ∈ l) : x ≤ l.foldr max 0 := by
  induction l with
  | nil => simp at hx
  | cons y ys ih =>
    rcases List.mem_cons.mp hx with h | h
    · subst h
      simp only [List.foldr_cons]
      exact le_max_left _ _
    · simp only [List.foldr_cons]
      exact le_trans (ih h) (le_max_right _ _)

end DESKernel

namespace Topic9

theorem bufferAppend_len {α : Type} (buf : List α) (m : α)
    (h : buf.length ≤ MESSAGES_PER_TASK - 1) :
    (bufferAppend buf m).1.length ≤ MESSAGES_PER_TASK - 1 := by
  simp only [MESSAGES_PER_TASK] at h
  simp only [bufferAppend, MESSAGES_PER_TASK]
  split
  · simp only [List.length_drop, List.length_append, List.length_singleton]
    omega
  · rename_i hnot
    simp only [List.length_append, List.length_singleton] at hnot ⊢
    omega

theorem bufferRun_len {α : Type} (msgs : List α) :
    (bufferRun msgs).length ≤ MESSAGES_PER_TASK - 1 := by
  have haux : ∀ (ms : List α) (buf : List α),
      buf.length ≤ MESSAGES_PER_TASK - 1 →
      (ms.foldl (fun b m => (bufferAppend b m).1) buf).length ≤
        MESSAGES_PER_TASK - 1 := by
    intro ms
    induction ms with
    | nil => intro buf h; exact h
    | cons m ms ih =>
      intro buf h
      exact ih ((bufferAppend buf m).1) (bufferAppend_len buf m h)
  exact haux msgs [] (by simp [MESSAGES_PER_TASK])

end Topic9

namespace Coords

theorem binIndex_lt (lo hi : ℚ) (bins : ℕ) (hb : 0 < bins) (v : ℚ) :
    binIndex lo hi bins v < bins := by
  unfold binIndex
  have hmin : min (Int.toNat ⌊(v - lo) * bins / (hi - lo)⌋) (bins - 1) ≤
      bins - 1 := min_le_right _ _
  omega

theorem sum_map_add (l : List ℕ) (f g : ℕ → ℕ) :
    (l.map (fun i => f i + g i)).sum = (l.map f).sum + (l.map g).sum := by
  induction l with
  | nil => rfl
  | cons x xs ih =>
    simp only [List.map_cons, List.sum_cons, ih]
    omega

theorem sum_map_ite_zero (n k : ℕ) (hk : n ≤ k) :
    ((List.range n).map (fun i => if k = i then 1 else 0)).sum = 0 := by
  induction n with
  | zero => rfl
  | succ n ih =>
    rw [List.range_succ]
    simp only [List.map_append, List.sum_append, List.map_cons, List.map_nil,
      List.sum_cons, List.sum_nil]
    rw [ih (by omega), if_neg (by omega)]
    omega

theorem sum_map_ite_one (n k : ℕ) (hk : k < n) :
    ((List.range n).map (fun i => if k = i then 1 else 0)).sum = 1 := by
  induction n with
  | zero => omega
  | succ n ih =>
    rw [List.range_succ]
    simp only [List.map_append, List.sum_append, List.map_cons, List.map_nil,
      List.sum_cons, List.sum_nil]
    by_cases hkn : k = n
    · rw [sum_map_ite_zero n k (by omega), if_pos hkn]
      omega
    · rw [ih (by omega), if_neg hkn]
      omega

theorem countP_partition (bins : ℕ) (f : ℚ → ℕ) (data : List ℚ)
    (hf : ∀ v ∈ data, f v < bins) :
    ((List.range bins).map
        (fun i => data.countP (fun v => decide (f v = i)))).sum =
      data.length := by
  induction data with
  | nil => simp
  | cons v vs ih =>
    have hv : f v < bins := hf v (List.mem_cons_self _ _)
    have hvs : ∀ w ∈ vs, f w < bins := fun w hw => hf w (List.mem_cons_of_mem _ hw)
    have hmapeq : (List.range bins).map
        (fun i => (v :: vs).countP (fun w => decide (f w = i))) =
        (List.range bins).map
          (fun i => vs.countP (fun w => decide (f w = i)) +
            (if f v = i then 1 else 0)) := by
      apply List.map_congr_left
      intro i _
      rw [List.countP_cons]
      by_cases h : f v = i
      · simp [h]
      · simp [h]
    rw [hmapeq, sum_map_add, ih hvs, sum_map_ite_one bins (f v) hv]
    simp

end Coords

/-! ## Claim theorems -/

open DESKernel
open Topic31
open Topic9
open Coords

/-- C1: every Resource created by the simulations (all with capacity 1)
satisfies `0 ≤ held ≤ capacity` after every sequence of request, release and
withdrawal operations, and in the capacity-1 case at most one process holds
the resource at any time (no two simultaneous holders). -/
theorem C1_capacity_invariant (c : ℤ) (hc : 0 < c) (ops : List ROp) :
    CapInv (rrun (mkResource c) ops) ∧
      (c = 1 → (rrun (mkResource c) ops).holding.length ≤ 1) := by
  have hinv := capInv_run (mkResource c) ops (capInv_mk c hc)
  refine ⟨hinv, ?_⟩
  intro h1
  obtain ⟨h0, hcap, hlen⟩ := hinv
  have hcap1 : (rrun (mkResource c) ops).capacity = c :=
    capacity_run (mkResource c) ops
  omega

/-- C2: FIFO fairness. If request `r1` is queued strictly ahead of request
`r2` on the same resource (after some prefix of operations) and neither is
ever withdrawn afterwards, then whenever `r2` has been granted, `r1` has
already been granted — `r1` is granted no later than `r2`. Moreover a release
always grants the freed slot to the head of the wait queue, i.e. to the
longest-waiting request. -/
theorem C2_fifo_fairness (c : ℤ) (pre post : List ROp) (r1 r2 : ℕ)
    (hahead : List.Sublist [r1, r2] (rrun (mkResource c) pre).wait_queue)
    (hnowd : ∀ op ∈ post, op ≠ ROp.withdraw r1 ∧ op ≠ ROp.withdraw r2)
    (hg2 : r2 ∈ (rrun (rrun (mkResource c) pre) post).granted_log) :
    r1 ∈ (rrun (rrun (mkResource c) pre) post).granted_log ∧
      ∀ (s : Resource) (id h₁ : ℕ) (t : List ℕ), s.wait_queue = h₁ :: t →
        id ∈ s.holding →
        (applyRelease s id).granted_log = s.granted_log ++ [h₁] := by
  constructor
  · have hwf := rwf_run (mkResource c) pre (rwf_mk c)
    have hstart : AheadPair r1 r2 (rrun (mkResource c) pre) := by
      left
      refine ⟨hahead, ?_⟩
      obtain ⟨_, _, hdisj, _⟩ := hwf
      exact hdisj r2 (hahead.subset (by simp))
    have hend := aheadPair_run r1 r2 _ post hwf hnowd hstart
    rcases hend with ⟨_, hr2⟩ | hr1
    · exact absurd hg2 hr2
    · exact hr1
  · intro s id h₁ t hq hid
    simp only [applyRelease, if_pos hid, hq]

/-- Witness for C2: with capacity 1, three requests queue ids 1 and 2 behind
holder 0; releasing 0 grants 1, then releasing 1 grants 2. -/
theorem C2_fifo_fairness_witness :
    (List.Sublist [1, 2]
        (rrun (mkResource 1) [ROp.request, ROp.request, ROp.request]).wait_queue ∧
      (∀ op ∈ [ROp.release 0, ROp.release 1],
        op ≠ ROp.withdraw 1 ∧ op ≠ ROp.withdraw 2) ∧
      2 ∈ (rrun (rrun (mkResource 1) [ROp.request, ROp.request, ROp.request])
        [ROp.release 0, ROp.release 1]).granted_log) ∧
    (1 ∈ (rrun (rrun (mkResource 1) [ROp.request, ROp.request, ROp.request])
        [ROp.release 0, ROp.release 1]).granted_log ∧
      ∀ (s : Resource) (id h₁ : ℕ) (t : List ℕ), s.wait_queue = h₁ :: t →
        id ∈ s.holding →
        (applyRelease s id).granted_log = s.granted_log ++ [h₁]) :=
  ⟨⟨by decide, by decide, by decide⟩,
    C2_fifo_fairness 1 [ROp.request, ROp.request, ROp.request]
      [ROp.release 0, ROp.release 1] 1 2 (by decide) (by decide) (by decide)⟩

/-- C3: the virtual clock is monotonically non-decreasing. For every run of
schedule/step operations from a valid scheduler state, the trace of trigger
times of resolved events — prefixed with the starting clock value — is
non-decreasing, and the final clock value is no smaller than the initial one;
hence every value of `env.now` observed by a process never decreases. -/
theorem C3_monotonic_clock (s : Sched) (ops : List SOp) (h : SInv s) :
    List.Chain' (· ≤ ·) (s.now :: (schedRun s ops).2) ∧
      s.now ≤ (schedRun s ops).1.now :=
  sinv_chain s ops h

/-- Witness for C3: from a fresh environment, schedule events at times 3, 1
and 3 again, then step three times; the resolved-time trace is `[1, 3, 3]`. -/
theorem C3_monotonic_clock_witness :
    SInv mkSched ∧
      (List.Chain' (· ≤ ·) (mkSched.now ::
          (schedRun mkSched [SOp.schedule 3, SOp.schedule 1, SOp.schedule 3,
            SOp.step, SOp.step, SOp.step]).2) ∧
        mkSched.now ≤ (schedRun mkSched [SOp.schedule 3, SOp.schedule 1,
          SOp.schedule 3, SOp.step, SOp.step, SOp.step]).1.now) :=
  ⟨sinv_mk, C3_monotonic_clock mkSched
    [SOp.schedule 3, SOp.schedule 1, SOp.schedule 3,
      SOp.step, SOp.step, SOp.step] sinv_mk⟩

/-- C7: determinism of event resolution. The scheduler step — resolve a
minimal entry in the `(trigger_time, sequence)` order — is a functional
relation: two runs of equal length from the same state resolve exactly the
same events in the same order and end in the same state. With the
duration/arrival draws fixed by a common random seed, two runs of a
simulation therefore produce identical traces, counters and statistics. -/
theorem C7_tie_break_determinism (s : Sched) (tr₁ tr₂ : List Entry)
    (s₁ s₂ : Sched) (h1 : RunRel s tr₁ s₁) (h2 : RunRel s tr₂ s₂)
    (hlen : tr₁.length = tr₂.length) : tr₁ = tr₂ ∧ s₁ = s₂ := by
  induction h1 generalizing tr₂ s₂ with
  | nil s =>
    cases h2 with
    | nil => exact ⟨rfl, rfl⟩
    | cons hstep hrun => simp at hlen
  | cons hstep hrun ih =>
    cases h2 with
    | nil => simp at hlen
    | cons hstep2 hrun2 =>
      obtain ⟨he, hs⟩ := stepRel_unique _ _ _ _ _ hstep hstep2
      subst he
      subst hs
      obtain ⟨htr, hfin⟩ := ih _ _ hrun2 (by simpa using hlen)
      exact ⟨by rw [htr], hfin⟩

/-- Witness for C7: two events share trigger time 5 (sequences 0 and 1); both
runs resolve sequence 0 first, then sequence 1 — the §8 scenario of two
timeouts at the same instant resolving in creation order, identically across
runs. -/
theorem C7_tie_break_determinism_witness :
    (RunRel { now := 0, queue := [⟨5, 1⟩, ⟨5, 0⟩], nextSeq := 2 }
        [⟨5, 0⟩, ⟨5, 1⟩] { now := 5, queue := [], nextSeq := 2 } ∧
      RunRel { now := 0, queue := [⟨5, 1⟩, ⟨5, 0⟩], nextSeq := 2 }
        [⟨5, 0⟩, ⟨5, 1⟩] { now := 5, queue := [], nextSeq := 2 } ∧
      ([(⟨5, 0⟩ : Entry), ⟨5, 1⟩].length = [(⟨5, 0⟩ : Entry), ⟨5, 1⟩].length)) ∧
      ([(⟨5, 0⟩ : Entry), ⟨5, 1⟩] = [(⟨5, 0⟩ : Entry), ⟨5, 1⟩] ∧
        ({ now := 5, queue := [], nextSeq := 2 } : Sched) =
          { now := 5, queue := [], nextSeq := 2 }) := by
  have hstep1 : StepRel { now := 0, queue := [⟨5, 1⟩, ⟨5, 0⟩], nextSeq := 2 }
      ⟨5, 0⟩ { now := 5, queue := [⟨5, 1⟩], nextSeq := 2 } :=
    ⟨by decide, by decide, by decide⟩
  have hstep2 : StepRel { now := 5, queue := [⟨5, 1⟩], nextSeq := 2 }
      ⟨5, 1⟩ { now := 5, queue := [], nextSeq := 2 } :=
    ⟨by decide, by decide, by decide⟩
  have hrun : RunRel { now := 0, queue := [⟨5, 1⟩, ⟨5, 0⟩], nextSeq := 2 }
      [⟨5, 0⟩, ⟨5, 1⟩] { now := 5, queue := [], nextSeq := 2 } :=
    RunRel.cons hstep1 (RunRel.cons hstep2 (RunRel.nil _))
  exact ⟨⟨hrun, hrun, rfl⟩,
    C7_tie_break_determinism _ _ _ _ _ hrun hrun rfl⟩

/-- C4: when the 12-second deadline fires strictly before the server grant,
the `req | env.timeout(DEADLINE)` race yields the timeout as winner, the
message takes the lost branch and is never served, and the abandoned request
— withdrawn from the wait queue — is never later granted: after the
withdrawal it is out of the queue and absent from the granted log after any
further operations, so a freed slot goes to some other (non-withdrawn)
queued request. -/
theorem C4_anyof_race_no_phantom_grant (arrival grantTime : ℚ)
    (reqSeq timeoutSeq : ℕ) (hlt : arrival + DEADLINE < grantTime)
    (s : Resource) (id : ℕ) (ops : List ROp)
    (hwf : Rwf s) (hq : id ∈ s.wait_queue) :
    anyOfWinner ⟨grantTime, reqSeq⟩ ⟨arrival + DEADLINE, timeoutSeq⟩ =
        ⟨arrival + DEADLINE, timeoutSeq⟩ ∧
    process_message arrival grantTime reqSeq timeoutSeq = MsgOutcome.lost ∧
    (∀ w, process_message arrival grantTime reqSeq timeoutSeq ≠
      MsgOutcome.served w) ∧
    id ∉ (applyWithdraw s id).wait_queue ∧
    id ∉ (rrun (applyWithdraw s id) ops).granted_log := by
  obtain ⟨hnd, hbound, hdisj, hgl⟩ := hwf
  have hnotle : ¬ entryLe ⟨grantTime, reqSeq⟩ ⟨arrival + DEADLINE, timeoutSeq⟩ := by
    rintro (h | ⟨he, _⟩)
    · simp only at h
      linarith
    · simp only at he
      linarith
  have hwinner : anyOfWinner ⟨grantTime, reqSeq⟩ ⟨arrival + DEADLINE, timeoutSeq⟩ =
      ⟨arrival + DEADLINE, timeoutSeq⟩ := by
    unfold anyOfWinner
    rw [if_neg hnotle]
  have hne : (⟨arrival + DEADLINE, timeoutSeq⟩ : Entry) ≠ ⟨grantTime, reqSeq⟩ := by
    intro hcon
    have : arrival + DEADLINE = grantTime := congrArg Entry.time hcon
    linarith
  have hlost : process_message arrival grantTime reqSeq timeoutSeq =
      MsgOutcome.lost := by
    unfold process_message
    simp only [hwinner]
    rw [if_neg hne]
  have hng : id ∉ s.granted_log := hdisj id hq
  have hwd : applyWithdraw s id =
      { s with wait_queue := s.wait_queue.erase id } := by
    unfold applyWithdraw
    rw [if_neg hng]
  have hout : id ∉ (applyWithdraw s id).wait_queue := by
    rw [hwd]
    exact hnd.not_mem_erase
  refine ⟨hwinner, hlost, ?_, hout, ?_⟩
  · intro w hcon
    rw [hlost] at hcon
    exact MsgOutcome.noConfusion hcon
  · have hnever : NeverGranted id (applyWithdraw s id) := by
      refine ⟨hout, ?_, ?_⟩
      · rw [hwd]; exact hng
      · rw [hwd]; exact hbound id hq
    exact (neverGranted_run id _ ops hnever).2.1

/-- Witness for C4: a message arriving at time 0 whose server would only be
free at time 15 loses the race against its deadline at time 12; the withdrawn
request (id 1, queued behind holder 0 on a capacity-1 server) is never
granted even after the holder releases. -/
theorem C4_anyof_race_no_phantom_grant_witness :
    ((0 : ℚ) + DEADLINE < 15 ∧
      Rwf (rrun (mkResource 1) [ROp.request, ROp.request]) ∧
      1 ∈ (rrun (mkResource 1) [ROp.request, ROp.request]).wait_queue) ∧
    (anyOfWinner ⟨15, 3⟩ ⟨(0 : ℚ) + DEADLINE, 4⟩ = ⟨(0 : ℚ) + DEADLINE, 4⟩ ∧
      process_message 0 15 3 4 = MsgOutcome.lost ∧
      (∀ w, process_message 0 15 3 4 ≠ MsgOutcome.served w) ∧
      1 ∉ (applyWithdraw (rrun (mkResource 1) [ROp.request, ROp.request]) 1).wait_queue ∧
      1 ∉ (rrun (applyWithdraw (rrun (mkResource 1) [ROp.request, ROp.request]) 1)
        [ROp.release 0]).granted_log) :=
  ⟨⟨by norm_num [DEADLINE], by decide, by decide⟩,
    C4_anyof_race_no_phantom_grant 0 15 3 4 (by norm_num [DEADLINE])
      (rrun (mkResource 1) [ROp.request, ROp.request]) 1 [ROp.release 0]
      (by decide) (by decide)⟩

/-- C5: when the server grant and the deadline timeout resolve at the same
virtual instant, the race winner is decided deterministically by event
creation order (the `(time, sequence)` tie-break): the earlier-created child
wins in either argument order. In Topic 31 the request event is created
before the timeout event, so the borderline message (wait exactly
`DEADLINE`) deterministically takes the grant branch — it is served, not
lost, and exactly one of the two branches executes. -/
theorem C5_same_instant_tie_break (arrival : ℚ) (reqSeq timeoutSeq : ℕ)
    (hseq : reqSeq < timeoutSeq) :
    anyOfWinner ⟨arrival + DEADLINE, reqSeq⟩ ⟨arrival + DEADLINE, timeoutSeq⟩ =
        ⟨arrival + DEADLINE, reqSeq⟩ ∧
    process_message arrival (arrival + DEADLINE) reqSeq timeoutSeq =
        MsgOutcome.served DEADLINE ∧
    process_message arrival (arrival + DEADLINE) reqSeq timeoutSeq ≠
        MsgOutcome.lost ∧
    (∀ e₁ e₂ : Entry, e₁.time = e₂.time → e₁.seq < e₂.seq →
        anyOfWinner e₁ e₂ = e₁ ∧ anyOfWinner e₂ e₁ = e₁) := by
  have hle : entryLe ⟨arrival + DEADLINE, reqSeq⟩ ⟨arrival + DEADLINE, timeoutSeq⟩ :=
    Or.inr ⟨rfl, le_of_lt hseq⟩
  have hwinner : anyOfWinner ⟨arrival + DEADLINE, reqSeq⟩
      ⟨arrival + DEADLINE, timeoutSeq⟩ = ⟨arrival + DEADLINE, reqSeq⟩ := by
    unfold anyOfWinner
    rw [if_pos hle]
  have hwait : arrival + DEADLINE - arrival = DEADLINE := by ring
  have hserved : process_message arrival (arrival + DEADLINE) reqSeq timeoutSeq =
      MsgOutcome.served DEADLINE := by
    unfold process_message
    split
    · rename_i hcon
      rw [hwait] at hcon
      exact absurd hcon (lt_irrefl _)
    · dsimp only
      rw [if_pos hwinner, hwait]
  refine ⟨hwinner, hserved, ?_, ?_⟩
  · rw [hserved]
    exact fun hcon => MsgOutcome.noConfusion hcon
  · intro e₁ e₂ ht hs
    have hyes : entryLe e₁ e₂ := Or.inr ⟨ht, le_of_lt hs⟩
    have hno : ¬ entryLe e₂ e₁ := by
      rintro (h | ⟨he, hs2⟩)
      · rw [ht] at h
        exact absurd h (lt_irrefl _)
      · omega
    constructor
    · unfold anyOfWinner
      rw [if_pos hyes]
    · unfold anyOfWinner
      rw [if_neg hno]

/-- Witness for C5 at arrival time 0, request sequence 0, timeout sequence
1: the borderline message (grant exactly at the deadline) is served. -/
theorem C5_same_instant_tie_break_witness :
    0 < 1 ∧
      (anyOfWinner ⟨(0 : ℚ) + DEADLINE, 0⟩ ⟨(0 : ℚ) + DEADLINE, 1⟩ =
          ⟨(0 : ℚ) + DEADLINE, 0⟩ ∧
        process_message 0 ((0 : ℚ) + DEADLINE) 0 1 = MsgOutcome.served DEADLINE ∧
        process_message 0 ((0 : ℚ) + DEADLINE) 0 1 ≠ MsgOutcome.lost ∧
        (∀ e₁ e₂ : Entry, e₁.time = e₂.time → e₁.seq < e₂.seq →
          anyOfWinner e₁ e₂ = e₁ ∧ anyOfWinner e₂ e₁ = e₁)) :=
  ⟨by decide, C5_same_instant_tie_break 0 0 1 (by decide)⟩

/-- C8: every duration the simulations pass to `timeout` is non-negative —
uniform draws from non-negative intervals, Topic 5's clamp of normal draws,
exponential inter-arrival draws, and non-negative constants — so the
`InvalidDuration` failure branch is unreachable and every created timeout
event resolves successfully (with trigger time `now + duration`). -/
theorem C8_timeout_never_fails :
    (∀ lo hi u now : ℚ, 0 ≤ lo → lo ≤ hi → 0 ≤ u → u ≤ 1 →
        timeoutTrigger now (uniformDraw lo hi u) =
          Except.ok (now + uniformDraw lo hi u)) ∧
    (∀ g now : ℚ, timeoutTrigger now (clampNonneg g) =
        Except.ok (now + clampNonneg g)) ∧
    (∀ lam u now : ℝ, 0 < lam → 0 ≤ u → u < 1 →
        timeoutTrigger now (-Real.log (1 - u) / lam) =
          Except.ok (now + -Real.log (1 - u) / lam)) ∧
    (∀ c now : ℚ, 0 ≤ c → timeoutTrigger now c = Except.ok (now + c)) := by
  refine ⟨?_, ?_, ?_, ?_⟩
  · intro lo hi u now hlo hlohi hu hu1
    have hpos : 0 ≤ uniformDraw lo hi u := by
      unfold uniformDraw
      nlinarith
    unfold timeoutTrigger
    rw [if_neg (not_lt.mpr hpos)]
  · intro g now
    have hpos : 0 ≤ clampNonneg g := by
      unfold clampNonneg
      split
      · exact le_refl 0
      · rename_i hg
        exact le_of_not_lt hg
    unfold timeoutTrigger
    rw [if_neg (not_lt.mpr hpos)]
  · intro lam u now hlam hu hu1
    have hlog : Real.log (1 - u) ≤ 0 :=
      Real.log_nonpos (by linarith) (by linarith)
    have hpos : 0 ≤ -Real.log (1 - u) / lam :=
      div_nonneg (neg_nonneg.mpr hlog) (le_of_lt hlam)
    unfold timeoutTrigger
    rw [if_neg (not_lt.mpr hpos)]
  · intro c now hc
    unfold timeoutTrigger
    rw [if_neg (not_lt.mpr hc)]

/-- Witness for C8: the Topic 31 arrival draw `uniform(2, 4)` at `u = 1/2`,
Topic 5's clamp at a negative normal draw `-3`, the exponential draw at
`u = 0` with rate 1, and the constant duration 2 (Topic 9's sensor B). -/
theorem C8_timeout_never_fails_witness :
    ((0 : ℚ) ≤ 2 ∧ (2 : ℚ) ≤ 4 ∧ (0 : ℚ) ≤ 1 / 2 ∧ (1 / 2 : ℚ) ≤ 1 ∧
      (0 : ℝ) < 1 ∧ (0 : ℝ) ≤ 0 ∧ (0 : ℝ) < 1 ∧ (0 : ℚ) ≤ 2) ∧
    (timeoutTrigger 0 (uniformDraw 2 4 (1 / 2 : ℚ)) =
        Except.ok (0 + uniformDraw 2 4 (1 / 2 : ℚ)) ∧
      timeoutTrigger 5 (clampNonneg (-3 : ℚ)) =
        Except.ok (5 + clampNonneg (-3 : ℚ)) ∧
      timeoutTrigger 0 (-Real.log (1 - 0) / 1) =
        Except.ok ((0 : ℝ) + -Real.log (1 - 0) / 1) ∧
      timeoutTrigger 7 (2 : ℚ) = Except.ok (7 + 2)) :=
  ⟨⟨by norm_num, by norm_num, by norm_num, by norm_num,
      by norm_num, le_refl 0, by norm_num, by norm_num⟩,
    ⟨C8_timeout_never_fails.1 2 4 (1 / 2) 0 (by norm_num) (by norm_num)
        (by norm_num) (by norm_num),
      C8_timeout_never_fails.2.1 (-3) 5,
      C8_timeout_never_fails.2.2.1 1 0 0 (by norm_num) (le_refl 0) (by norm_num),
      C8_timeout_never_fails.2.2.2 2 7 (by norm_num)⟩⟩

/-- C6: an AllOf composite wait resolves successfully iff every child
resolves successfully, and any failed child makes it fail while the sibling
entries are untouched. The caller resumes no earlier than any child
completion, and in Topic 28's `AllOf(env, [query_a, query_b, query_c])` with
all three centre queries succeeding, it resumes exactly at the maximum of
the three completion times (likewise Topic 4's two confirmation
processes). -/
theorem C6_allof_completeness (cs : List (ℚ × Bool)) (qa qb qc : ℚ)
    (hc : 0 ≤ qc) :
    (allOfOk cs = true ↔ ∀ c ∈ cs, c.2 = true) ∧
    (∀ c ∈ cs, c.2 = false → allOfOk cs = false) ∧
    (∀ c ∈ cs, c.1 ≤ allOfTime cs) ∧
    allOfOk [(qa, true), (qb, true), (qc, true)] = true ∧
    allOfTime [(qa, true), (qb, true), (qc, true)] = max qa (max qb qc) := by
  have hiff : allOfOk cs = true ↔ ∀ c ∈ cs, c.2 = true := List.all_eq_true
  refine ⟨hiff, ?_, ?_, ?_, ?_⟩
  · intro c hcmem hfalse
    cases hok : allOfOk cs with
    | false => rfl
    | true =>
      have := hiff.mp hok c hcmem
      rw [hfalse] at this
      exact Bool.noConfusion this
  · intro c hcmem
    exact le_foldr_max c.1 _ (List.mem_map_of_mem _ hcmem)
  · rfl
  · simp only [allOfTime, List.map_cons, List.map_nil, List.foldr_cons,
      List.foldr_nil]
    rw [max_eq_left hc]

/-- Witness for C6 with the Topic 28 bottleneck times 8, 13, 11 and the
mixed child list `[(3, true), (5, false)]`. -/
theorem C6_allof_completeness_witness :
    (0 : ℚ) ≤ 11 ∧
      ((allOfOk [(3, true), ((5 : ℚ), false)] = true ↔
          ∀ c ∈ [(3, true), ((5 : ℚ), false)], c.2 = true) ∧
        (∀ c ∈ [(3, true), ((5 : ℚ), false)], c.2 = false →
          allOfOk [(3, true), ((5 : ℚ), false)] = false) ∧
        (∀ c ∈ [(3, true), ((5 : ℚ), false)], c.1 ≤
          allOfTime [(3, true), ((5 : ℚ), false)]) ∧
        allOfOk [((8 : ℚ), true), (13, true), (11, true)] = true ∧
        allOfTime [((8 : ℚ), true), (13, true), (11, true)] =
          max 8 (max 13 11)) :=
  ⟨by norm_num, C6_allof_completeness [(3, true), ((5 : ℚ), false)] 8 13 11
    (by norm_num)⟩

/-- C9: after every generator iteration the shared `task_buffer` holds at
most `MESSAGES_PER_TASK - 1 = 3` messages, over any interleaving of sensor A
and sensor B arrivals from the initially empty buffer. Whenever an append
brings the buffer to 4 or more messages, exactly the first
`MESSAGES_PER_TASK` messages — in arrival order — are removed and handed to
`preprocess_task`, and the remaining entries keep their relative order;
otherwise nothing is removed. -/
theorem C9_task_buffer_bound (α : Type) (msgs : List α) (buf : List α) (m : α)
    (hbuf : buf.length ≤ MESSAGES_PER_TASK - 1) :
    (Topic9.bufferRun msgs).length ≤ MESSAGES_PER_TASK - 1 ∧
    (Topic9.bufferAppend buf m).1.length ≤ MESSAGES_PER_TASK - 1 ∧
    (MESSAGES_PER_TASK ≤ (buf ++ [m]).length →
      (Topic9.bufferAppend buf m).2 =
          some ((buf ++ [m]).take MESSAGES_PER_TASK) ∧
        (Topic9.bufferAppend buf m).1 = (buf ++ [m]).drop MESSAGES_PER_TASK) ∧
    (¬ MESSAGES_PER_TASK ≤ (buf ++ [m]).length →
      (Topic9.bufferAppend buf m).1 = buf ++ [m] ∧
        (Topic9.bufferAppend buf m).2 = none) := by
  refine ⟨Topic9.bufferRun_len msgs, Topic9.bufferAppend_len buf m hbuf, ?_, ?_⟩
  · intro hge
    unfold Topic9.bufferAppend
    dsimp only
    rw [if_pos hge]
    exact ⟨rfl, rfl⟩
  · intro hlt
    unfold Topic9.bufferAppend
    dsimp only
    rw [if_neg hlt]
    exact ⟨rfl, rfl⟩

/-- Witness for C9 over natural-number message stamps: a full buffer of three
messages receiving a fourth flushes exactly the first four. -/
theorem C9_task_buffer_bound_witness :
    ([10, 20, 30] : List ℕ).length ≤ MESSAGES_PER_TASK - 1 ∧
      ((Topic9.bufferRun [1, 2, 3, 4, 5, 6]).length ≤ MESSAGES_PER_TASK - 1 ∧
        (Topic9.bufferAppend [10, 20, 30] 40).1.length ≤ MESSAGES_PER_TASK - 1 ∧
        (MESSAGES_PER_TASK ≤ ([10, 20, 30] ++ [40]).length →
          (Topic9.bufferAppend [10, 20, 30] 40).2 =
              some (([10, 20, 30] ++ [40]).take MESSAGES_PER_TASK) ∧
            (Topic9.bufferAppend [10, 20, 30] 40).1 =
              ([10, 20, 30] ++ [40]).drop MESSAGES_PER_TASK) ∧
        (¬ MESSAGES_PER_TASK ≤ ([10, 20, 30] ++ [40]).length →
          (Topic9.bufferAppend [10, 20, 30] 40).1 = [10, 20, 30] ++ [40] ∧
            (Topic9.bufferAppend [10, 20, 30] 40).2 = none)) :=
  ⟨by decide, C9_task_buffer_bound ℕ [1, 2, 3, 4, 5, 6] [10, 20, 30] 40
    (by decide)⟩

/-- C10: `generate_histogram_coords` never propagates an exception: every
input yields either an error string or a (possibly empty) pair list.  An
unreadable file or an unparseable line yields a string beginning with
`"Error: "`; a readable file with no lines yields the empty string; and
otherwise the function emits one `(x, y)` pair per histogram bin, where each
`x` is the midpoint of that bin's edges and the `y` values sum to the number
of data lines read. -/
theorem C10_histogram_coords (file : Except String (List (Except String ℚ)))
    (bins : ℕ) (hb : 0 < bins) :
    ((∃ msg, histogramCoordsResult file bins =
        CoordsResult.error ("Error: " ++ msg)) ∨
      (∃ ps, histogramCoordsResult file bins = CoordsResult.output ps)) ∧
    (∀ e, file = Except.error e →
      generate_histogram_coords file bins = "Error: " ++ e) ∧
    (∀ lines e, file = Except.ok lines → parseLines lines = Except.error e →
      generate_histogram_coords file bins = "Error: " ++ e) ∧
    (∀ lines, file = Except.ok lines → parseLines lines = Except.ok [] →
      generate_histogram_coords file bins = "") ∧
    (∀ lines d ds, file = Except.ok lines →
      parseLines lines = Except.ok (d :: ds) →
      histogramCoordsResult file bins = CoordsResult.output
          (histPairs (histRange d ds).1 (histRange d ds).2 bins (d :: ds)) ∧
        (histPairs (histRange d ds).1 (histRange d ds).2 bins
          (d :: ds)).length = bins ∧
        (∀ p ∈ histPairs (histRange d ds).1 (histRange d ds).2 bins (d :: ds),
          ∃ i, i < bins ∧
            p.1 = (binEdge (histRange d ds).1 (histRange d ds).2 bins i +
              binEdge (histRange d ds).1 (histRange d ds).2 bins (i + 1)) / 2) ∧
        ((histPairs (histRange d ds).1 (histRange d ds).2 bins
          (d :: ds)).map (fun p => p.2)).sum = (d :: ds).length) := by
  refine ⟨?_, ?_, ?_, ?_, ?_⟩
  · cases file with
    | error e => exact Or.inl ⟨e, rfl⟩
    | ok lines =>
      cases hp : parseLines lines with
      | error e =>
        exact Or.inl ⟨e, by simp [histogramCoordsResult, hp]⟩
      | ok vs =>
        cases vs with
        | nil => exact Or.inr ⟨[], by simp [histogramCoordsResult, hp]⟩
        | cons d ds =>
          refine Or.inr ⟨histPairs (histRange d ds).1 (histRange d ds).2 bins
            (d :: ds), ?_⟩
          simp [histogramCoordsResult, hp]
  · intro e he
    subst he
    rfl
  · intro lines e he hp
    subst he
    simp [generate_histogram_coords, histogramCoordsResult, renderCoords, hp]
  · intro lines he hp
    subst he
    simp [generate_histogram_coords, histogramCoordsResult, renderCoords, hp,
      String.join]
  · intro lines d ds he hp
    subst he
    have hres : histogramCoordsResult (Except.ok lines) bins =
        CoordsResult.output (histPairs (histRange d ds).1
          (histRange d ds).2 bins (d :: ds)) := by
      simp [histogramCoordsResult, hp]
    refine ⟨hres, ?_, ?_, ?_⟩
    · simp [histPairs]
    · intro p hpmem
      rcases List.mem_map.mp hpmem with ⟨i, hi, hpe⟩
      exact ⟨i, List.mem_range.mp hi, by rw [← hpe]⟩
    · simp only [histPairs, List.map_map]
      exact countP_partition bins _ (d :: ds)
        (fun v _ => binIndex_lt _ _ bins hb v)

/-- Witness for C10 on the two-line file with values 1 and 3 and the default
`bins = 10`. -/
theorem C10_histogram_coords_witness :
    0 < 10 ∧
      (((∃ msg, histogramCoordsResult
            (Except.ok [Except.ok 1, Except.ok 3]) 10 =
            CoordsResult.error ("Error: " ++ msg)) ∨
          (∃ ps, histogramCoordsResult
            (Except.ok [Except.ok 1, Except.ok 3]) 10 =
            CoordsResult.output ps)) ∧
        (∀ e, (Except.ok [Except.ok 1, Except.ok 3] :
            Except String (List (Except String ℚ))) = Except.error e →
          generate_histogram_coords
            (Except.ok [Except.ok 1, Except.ok 3]) 10 = "Error: " ++ e) ∧
        (∀ lines e, (Except.ok [Except.ok 1, Except.ok 3] :
            Except String (List (Except String ℚ))) = Except.ok lines →
          parseLines lines = Except.error e →
          generate_histogram_coords
            (Except.ok [Except.ok 1, Except.ok 3]) 10 = "Error: " ++ e) ∧
        (∀ lines, (Except.ok [Except.ok 1, Except.ok 3] :
            Except String (List (Except String ℚ))) = Except.ok lines →
          parseLines lines = Except.ok [] →
          generate_histogram_coords
            (Except.ok [Except.ok 1, Except.ok 3]) 10 = "") ∧
        (∀ lines d ds, (Except.ok [Except.ok 1, Except.ok 3] :
            Except String (List (Except String ℚ))) = Except.ok lines →
          parseLines lines = Except.ok (d :: ds) →
          histogramCoordsResult (Except.ok [Except.ok 1, Except.ok 3]) 10 =
              CoordsResult.output (histPairs (histRange d ds).1
                (histRange d ds).2 10 (d :: ds)) ∧
            (histPairs (histRange d ds).1 (histRange d ds).2 10
              (d :: ds)).length = 10 ∧
            (∀ p ∈ histPairs (histRange d ds).1 (histRange d ds).2 10
                (d :: ds),
              ∃ i, i < 10 ∧
                p.1 = (binEdge (histRange d ds).1 (histRange d ds).2 10 i +
                  binEdge (histRange d ds).1 (histRange d ds).2 10
                    (i + 1)) / 2) ∧
            ((histPairs (histRange d ds).1 (histRange d ds).2 10
              (d :: ds)).map (fun p => p.2)).sum = (d :: ds).length)) :=
  ⟨by decide,
    C10_histogram_coords (Except.ok [Except.ok 1, Except.ok 3]) 10 (by decide)⟩

/-- Witness for C1 at capacity 1 with a concrete operation sequence: two
requests (the second queues), a release (granting the queued request), a
withdrawal. -/
theorem C1_capacity_invariant_witness :
    (0 : ℤ) < 1 ∧
      (CapInv (rrun (mkResource 1)
          [ROp.request, ROp.request, ROp.release 0, ROp.withdraw 1]) ∧
        ((1 : ℤ) = 1 → (rrun (mkResource 1)
          [ROp.request, ROp.request, ROp.release 0, ROp.withdraw 1]).holding.length ≤ 1)) :=
  ⟨by decide, C1_capacity_invariant 1 (by decide)
      [ROp.request, ROp.request, ROp.release 0, ROp.withdraw 1]⟩
